import Mathlib

/-!
Verification of the oeuvre static-site template engine.

The development shallowly embeds the Rust sources:
  * the DOM tree model (`minidom::Element` as the code uses it: name,
    namespace, ordered attribute list with unique keys, ordered children
    that are either text/comment nodes or elements);
  * the composition engine `render_template` and its helpers from
    `src/site/render.rs`;
  * the path partitioner `Site::expand_glob` from `src/site/mod.rs`;
  * the library loader `Template::load_many` from `src/site/template.rs`;
  * the page loader `Page::new` / `Page::load_many` from `src/site/page.rs`.

The render functions of the source are mutually recursive and recursion is
not structural at exactly two places: resolving an include jumps to a
snippet's stored tree, and resolving a slot jumps to a slot value stored in
the page's map.  The embedding therefore takes a fuel parameter that is
consumed only at those two jumps; every other recursive call descends into a
strict subterm.  `none` means the engine ran out of fuel, i.e. the Rust
program would still be recursing at that depth.
-/

namespace Oeuvre

/- A DOM tree element: tag name, namespace, ordered attribute list (keys
unique), ordered child nodes.  This models `minidom::Element` as the code
uses it (spec section 3). -/
mutual
inductive Element : Type where
  | mk (name : String) (ns : String) (attrs : List (String × String)) (nodes : List Node)
inductive Node : Type where
  | text (s : String)
  | child (e : Element)
end

def Element.name : Element → String
  | .mk n _ _ _ => n

def Element.ns : Element → String
  | .mk _ s _ _ => s

def Element.attrs : Element → List (String × String)
  | .mk _ _ a _ => a

def Element.nodes : Element → List Node
  | .mk _ _ _ nds => nds

/-- The sub-elements of an element, skipping text nodes
(`minidom::Element::children`). -/
def Element.children (e : Element) : List Element :=
  e.nodes.filterMap (fun nd =>
    match nd with
    | .text _ => none
    | .child c => some c)

/-- Structural model of `str::starts_with` (`String.startsWith` in Lean is
byte-position based and does not reduce in the kernel; prefix-of-character
-list is extensionally the same test). -/
def starts_with (s p : String) : Bool :=
  p.data.isPrefixOf s.data

/-- A name-keyed map, modelling `HashMap<String, _>` extensionally as an
association list.  Lookup returns the first binding. -/
abbrev SMap (α : Type) := List (String × α)

def SMap.find {α : Type} : SMap α → String → Option α
  | [], _ => none
  | (k', v) :: rest, k => if k' = k then some v else SMap.find rest k

/-- Model of `HashMap::insert`: the new binding replaces any existing binding of the
same key. -/
def SMap.insert {α : Type} (m : SMap α) (k : String) (v : α) : SMap α :=
  (k, v) :: m.filter (fun p => decide (p.1 ≠ k))

/-- Attribute lookup, `minidom::Element::attr`. -/
def Element.attr (e : Element) (k : String) : Option String :=
  SMap.find e.attrs k

/-- Model of `minidom::Element::set_attr` on the attribute list: overwrite in place if
the key exists, else append. -/
def set_attr (attrs : List (String × String)) (k v : String) : List (String × String) :=
  if attrs.any (fun p => decide (p.1 = k)) then
    attrs.map (fun p => if p.1 = k then (k, v) else p)
  else
    attrs ++ [(k, v)]

/-- Model of `initialize_element` (render.rs): a bare element with the template
element's name and namespace, receiving every attribute whose name does not
start with `oeuvre-`, in order, via `set_attr`. -/
def init_element (template_element : Element) : Element :=
  .mk template_element.name template_element.ns
    ((template_element.attrs.filter (fun p => !starts_with p.1 "oeuvre-")).foldl
      (fun acc p => set_attr acc p.1 p.2) [])
    []

/-- Append rendered output nodes to the element being assembled
(`append_node` / `append_child` calls of the source). -/
def append_nodes : Element → List Node → Element
  | .mk n nsp as nds, more => .mk n nsp as (nds ++ more)

mutual
/-- Model of `render_template` (render.rs lines 8-33): build the output element from
the input element via `initialize_element`, then walk the children in order,
appending each child's contribution. -/
def render_template (slots snippets : SMap Element) : Nat → Element → Option Element
  | fuel, .mk n nsp as nds =>
      (render_nodes slots snippets fuel nds).map
        (fun out => append_nodes (init_element (.mk n nsp as nds)) out)
termination_by fuel e => (fuel, sizeOf e, 0)

/-- The child-walking loop of `render_template`: text/comment nodes are
emitted unchanged, element children are dispatched on their tag. -/
def render_nodes (slots snippets : SMap Element) : Nat → List Node → Option (List Node)
  | _, [] => some []
  | fuel, .text s :: rest =>
      (render_nodes slots snippets fuel rest).map (fun r => .text s :: r)
  | fuel, .child el :: rest => do
      let here ← render_child slots snippets fuel el
      let r ← render_nodes slots snippets fuel rest
      pure (here ++ r)
termination_by fuel l => (fuel, sizeOf l, 0)

/-- The tag dispatch of `render_template`'s match on `element.name()`:
`oeuvre-include` and `oeuvre-slot` are handled by their own functions, any
other `oeuvre-` tag is an error contributing nothing, and an ordinary
element is rendered recursively and appended as a single child. -/
def render_child (slots snippets : SMap Element) : Nat → Element → Option (List Node)
  | fuel, .mk n nsp as nds =>
      if n = "oeuvre-include" then
        render_include slots snippets fuel (.mk n nsp as nds)
      else if n = "oeuvre-slot" then
        render_slot slots snippets fuel (.mk n nsp as nds)
      else if starts_with n "oeuvre-" then
        some []
      else
        (render_template slots snippets fuel (.mk n nsp as nds)).map (fun r => [.child r])
termination_by fuel el => (fuel, sizeOf el, 2)

/-- Model of `render_include` (render.rs lines 40-55).  The snippet jump is the
non-structural recursion and consumes one unit of fuel. -/
def render_include (slots snippets : SMap Element) : Nat → Element → Option (List Node)
  | fuel, .mk n nsp as nds =>
      match Element.attr (.mk n nsp as nds) "oeuvre-snippet" with
      | some snippet_name =>
        match SMap.find snippets snippet_name with
        | some snippet =>
          match fuel with
          | 0 => none
          | fuel + 1 => unwrap_fragment slots snippets fuel snippet.nodes
        | none => unwrap_fragment slots snippets fuel nds
      | none => some []
termination_by fuel el => (fuel, sizeOf el, 1)

/-- Model of `render_slot` (render.rs lines 62-80).  The slot-value jump is the
non-structural recursion and consumes one unit of fuel. -/
def render_slot (slots snippets : SMap Element) : Nat → Element → Option (List Node)
  | fuel, .mk n nsp as nds =>
      match Element.attr (.mk n nsp as nds) "oeuvre-name" with
      | some slot_name =>
        match SMap.find slots slot_name with
        | some slot_value =>
          match fuel with
          | 0 => none
          | fuel + 1 =>
            if slot_value.name = "oeuvre-fragment" then
              unwrap_fragment slots snippets fuel slot_value.nodes
            else
              (render_template slots snippets fuel slot_value).map (fun r => [.child r])
        | none => unwrap_fragment slots snippets fuel nds
      | none => some []
termination_by fuel el => (fuel, sizeOf el, 1)

/-- Model of `unwrap_fragment` (render.rs lines 110-124): text nodes are appended
unchanged, element children are each rendered with `render_template` and
appended directly, discarding the wrapper. -/
def unwrap_fragment (slots snippets : SMap Element) : Nat → List Node → Option (List Node)
  | _, [] => some []
  | fuel, .text s :: rest =>
      (unwrap_fragment slots snippets fuel rest).map (fun r => .text s :: r)
  | fuel, .child c :: rest => do
      let r ← render_template slots snippets fuel c
      let rs ← unwrap_fragment slots snippets fuel rest
      pure (.child r :: rs)
termination_by fuel l => (fuel, sizeOf l, 0)
end

/-- Stated from the spec's words: the output contributed by rendering one
child on its own — a text child passes through unchanged, an element child
is rendered recursively, independently of its siblings. -/
def render_one_child (slots snippets : SMap Element) (fuel : Nat) : Node → Option (List Node)
  | .text s => some [.text s]
  | .child c => (render_template slots snippets fuel c).map (fun r => [.child r])

/-- Stated from the spec's words, for comparison with `unwrap_fragment`:
"recursively render each of the [wrapper's] own children and append the
results directly", i.e. render every child independently and concatenate
the results in order. -/
def render_children_spec (slots snippets : SMap Element) (fuel : Nat) :
    List Node → Option (List Node)
  | [] => some []
  | nd :: rest => do
      let here ← render_one_child slots snippets fuel nd
      let more ← render_children_spec slots snippets fuel rest
      pure (here ++ more)

/-- The source's `unwrap_fragment` agrees with the spec's description of
unwrapping: each child is rendered independently and the results are
concatenated in order. -/
theorem unwrap_fragment_eq_spec (slots snippets : SMap Element) (fuel : Nat) (nds : List Node) :
    unwrap_fragment slots snippets fuel nds = render_children_spec slots snippets fuel nds := by
  induction nds with
  | nil => simp [unwrap_fragment, render_children_spec]
  | cons nd rest ih =>
    cases nd with
    | text s =>
      simp only [unwrap_fragment, ih, render_children_spec, render_one_child]
      cases hm : render_children_spec slots snippets fuel rest with
      | none => simp [hm]
      | some ls => simp [hm]
    | child c =>
      simp only [unwrap_fragment, ih, render_children_spec, render_one_child]
      cases hr : render_template slots snippets fuel c with
      | none => simp [hr]
      | some r =>
        cases hm : render_children_spec slots snippets fuel rest with
        | none => simp [hr, hm]
        | some ls => simp [hr, hm]

/-- C2: for every `oeuvre-include` element encountered during rendering: if
its `oeuvre-snippet` attribute names a snippet present in the snippet map,
the output receives exactly the recursively rendered children of that
snippet's root element, appended in order, the root's own tag and attributes
discarded; if the named snippet is absent, the output receives the include
element's own recursively rendered children the same way; if the attribute
is absent, the element contributes no output and rendering continues with
the next sibling.  (The snippet jump consumes one unit of fuel.) -/
theorem spec_C2_include_semantics (slots snippets : SMap Element) (fuel : Nat) (el : Element)
    (h : el.name = "oeuvre-include") :
    (∀ nm s, el.attr "oeuvre-snippet" = some nm → SMap.find snippets nm = some s →
      render_child slots snippets (fuel + 1) el =
        render_children_spec slots snippets fuel s.nodes) ∧
    (∀ nm, el.attr "oeuvre-snippet" = some nm → SMap.find snippets nm = none →
      render_child slots snippets fuel el =
        render_children_spec slots snippets fuel el.nodes) ∧
    (el.attr "oeuvre-snippet" = none →
      render_child slots snippets fuel el = some [] ∧
      ∀ rest, render_nodes slots snippets fuel (.child el :: rest) =
        render_nodes slots snippets fuel rest) := by
  obtain ⟨n, nsp, as, nds⟩ := el
  simp only [Element.name] at h
  subst h
  refine ⟨?_, ?_, ?_⟩
  · intro nm s ha hf
    simp [render_child, render_include, ha, hf, unwrap_fragment_eq_spec]
  · intro nm ha hf
    simp [render_child, render_include, ha, hf, unwrap_fragment_eq_spec, Element.nodes]
  · intro ha
    have hchild : render_child slots snippets fuel (.mk "oeuvre-include" nsp as nds) = some [] := by
      simp [render_child, render_include, ha]
    refine ⟨hchild, ?_⟩
    intro rest
    simp only [render_nodes, hchild]
    cases hr : render_nodes slots snippets fuel rest with
    | none => simp [hr]
    | some r => simp [hr]

/-- C2 witness: a concrete include element whose snippet exists, and a
concrete include element with no `oeuvre-snippet` attribute. -/
theorem spec_C2_witness :
    (Element.mk "oeuvre-include" "" [("oeuvre-snippet", "s")] []).name = "oeuvre-include" ∧
    render_child [] [("s", Element.mk "root" "" [] [.text "snip"])] 1
        (Element.mk "oeuvre-include" "" [("oeuvre-snippet", "s")] []) =
      render_children_spec [] [("s", Element.mk "root" "" [] [.text "snip"])] 0
        [.text "snip"] :=
  ⟨rfl,
    (spec_C2_include_semantics [] [("s", Element.mk "root" "" [] [.text "snip"])] 0
      (Element.mk "oeuvre-include" "" [("oeuvre-snippet", "s")] []) rfl).1
      "s" (Element.mk "root" "" [] [.text "snip"]) rfl rfl⟩

/-- C3: rendering an `oeuvre-slot` element whose `oeuvre-name` attribute is
present but names no entry in the slot-value map produces exactly the output
of rendering each of that element's own children directly, concatenated; the
slot wrapper itself does not appear. -/
theorem spec_C3_slot_fallback (slots snippets : SMap Element) (fuel : Nat) (el : Element)
    (nm : String) (h : el.name = "oeuvre-slot") (ha : el.attr "oeuvre-name" = some nm)
    (hf : SMap.find slots nm = none) :
    render_child slots snippets fuel el =
      render_children_spec slots snippets fuel el.nodes := by
  obtain ⟨n, nsp, as, nds⟩ := el
  simp only [Element.name] at h
  subst h
  simp [render_child, render_slot, ha, hf, unwrap_fragment_eq_spec, Element.nodes] at *

/-- C3 witness: a concrete slot element with fallback content and an empty
slot map. -/
theorem spec_C3_witness :
    render_child [] [] 3 (Element.mk "oeuvre-slot" "" [("oeuvre-name", "x")] [.text "fb"]) =
      render_children_spec [] [] 3 [.text "fb"] :=
  spec_C3_slot_fallback [] [] 3
    (Element.mk "oeuvre-slot" "" [("oeuvre-name", "x")] [.text "fb"]) "x" rfl rfl rfl

/-- C4: a resolved slot whose slot value's tag is `oeuvre-fragment`
contributes the concatenation of the independently rendered children of the
fragment, the wrapper discarded; a resolved slot value with any other tag is
recursively rendered and appended as a single child element.  (The
slot-value jump consumes one unit of fuel.) -/
theorem spec_C4_slot_resolved (slots snippets : SMap Element) (fuel : Nat) (el : Element)
    (nm : String) (v : Element) (h : el.name = "oeuvre-slot")
    (ha : el.attr "oeuvre-name" = some nm) (hf : SMap.find slots nm = some v) :
    (v.name = "oeuvre-fragment" →
      render_child slots snippets (fuel + 1) el =
        render_children_spec slots snippets fuel v.nodes) ∧
    (v.name ≠ "oeuvre-fragment" →
      render_child slots snippets (fuel + 1) el =
        (render_template slots snippets fuel v).map (fun r => [.child r])) := by
  obtain ⟨n, nsp, as, nds⟩ := el
  simp only [Element.name] at h
  subst h
  constructor
  · intro hv
    simp [render_child, render_slot, ha, hf, hv, unwrap_fragment_eq_spec]
  · intro hv
    simp [render_child, render_slot, ha, hf, hv]

/-- C4 witness: a concrete slot resolved to a fragment-wrapped value. -/
theorem spec_C4_witness :
    (Element.mk "oeuvre-fragment" "" [] [.text "a", .text "b"]).name = "oeuvre-fragment" ∧
    render_child [("x", Element.mk "oeuvre-fragment" "" [] [.text "a", .text "b"])] [] 1
        (Element.mk "oeuvre-slot" "" [("oeuvre-name", "x")] []) =
      render_children_spec [("x", Element.mk "oeuvre-fragment" "" [] [.text "a", .text "b"])] []
        0 [.text "a", .text "b"] :=
  ⟨rfl,
    (spec_C4_slot_resolved [("x", Element.mk "oeuvre-fragment" "" [] [.text "a", .text "b"])]
      [] 0 (Element.mk "oeuvre-slot" "" [("oeuvre-name", "x")] []) "x"
      (Element.mk "oeuvre-fragment" "" [] [.text "a", .text "b"]) rfl rfl rfl).1 rfl⟩

/- Reserved-attribute cleanliness: no element anywhere in a tree carries an
attribute whose name begins with `oeuvre-`. -/
mutual
def clean_element : Element → Bool
  | .mk _ _ as nds => as.all (fun p => !starts_with p.1 "oeuvre-") && clean_nodes nds
def clean_node : Node → Bool
  | .text _ => true
  | .child e => clean_element e
def clean_nodes : List Node → Bool
  | [] => true
  | nd :: rest => clean_node nd && clean_nodes rest
end

theorem clean_nodes_append (a b : List Node) :
    clean_nodes (a ++ b) = (clean_nodes a && clean_nodes b) := by
  induction a with
  | nil => simp [clean_nodes]
  | cons nd rest ih => simp [clean_nodes, ih, Bool.and_assoc]

theorem set_attr_all (P : String × String → Bool) (attrs : List (String × String))
    (k v : String) (hall : attrs.all P) (hkv : P (k, v)) :
    (set_attr attrs k v).all P := by
  unfold set_attr
  split
  · simp only [List.all_eq_true] at *
    intro p hp
    obtain ⟨q, hq, hqp⟩ := List.mem_map.mp hp
    by_cases h : q.1 = k
    · simp only [h, if_true] at hqp
      exact hqp ▸ hkv
    · simp only [h, if_false] at hqp
      exact hqp ▸ hall q hq
  · simp only [List.all_eq_true] at hall ⊢
    intro p hp
    rcases List.mem_append.mp hp with hm | hm
    · exact hall p hm
    · simp only [List.mem_singleton] at hm
      exact hm ▸ hkv

theorem foldl_set_attr_all (P : String × String → Bool) (l : List (String × String)) :
    ∀ acc, acc.all P → (∀ p ∈ l, P p) → (l.foldl (fun a p => set_attr a p.1 p.2) acc).all P := by
  induction l with
  | nil => intro acc h _; simpa using h
  | cons q rest ih =>
    intro acc hacc hl
    simp only [List.foldl_cons]
    exact ih _ (set_attr_all P acc q.1 q.2 hacc (hl q (by simp)))
      (fun p hp => hl p (by simp [hp]))

/-- The function `initialize_element` only ever copies attributes that do not start with
the reserved prefix. -/
theorem init_element_clean_attrs (e : Element) :
    (init_element e).attrs.all (fun p => !starts_with p.1 "oeuvre-") := by
  obtain ⟨n, nsp, as, nds⟩ := e
  simp only [init_element, Element.attrs]
  exact foldl_set_attr_all _ _ [] (by simp)
    (fun p hp => (List.mem_filter.mp hp).2)

/-- The six mutually recursive clean-output statements, proved by the
functional induction principle of the render functions. -/
theorem render_clean_mutual (slots snippets : SMap Element) :
    (∀ fuel e, ∀ r, render_template slots snippets fuel e = some r → clean_element r = true) ∧
    (∀ fuel l, ∀ out, render_nodes slots snippets fuel l = some out → clean_nodes out = true) ∧
    (∀ fuel el, ∀ out, render_child slots snippets fuel el = some out → clean_nodes out = true) ∧
    (∀ fuel el, ∀ out, render_slot slots snippets fuel el = some out → clean_nodes out = true) ∧
    (∀ fuel l, ∀ out, unwrap_fragment slots snippets fuel l = some out → clean_nodes out = true) ∧
    (∀ fuel el, ∀ out, render_include slots snippets fuel el = some out → clean_nodes out = true) := by
  refine render_template.mutual_induct slots snippets
    (fun fuel e => ∀ r, render_template slots snippets fuel e = some r → clean_element r = true)
    (fun fuel l => ∀ out, render_nodes slots snippets fuel l = some out → clean_nodes out = true)
    (fun fuel el => ∀ out, render_child slots snippets fuel el = some out → clean_nodes out = true)
    (fun fuel el => ∀ out, render_slot slots snippets fuel el = some out → clean_nodes out = true)
    (fun fuel l => ∀ out, unwrap_fragment slots snippets fuel l = some out → clean_nodes out = true)
    (fun fuel el => ∀ out, render_include slots snippets fuel el = some out → clean_nodes out = true)
    ?_ ?_ ?_ ?_ ?_ ?_ ?_ ?_ ?_ ?_ ?_ ?_ ?_ ?_ ?_ ?_ ?_ ?_ ?_ ?_
  · -- render_template
    intro fuel n nsp as nds ih r h
    simp only [render_template] at h
    obtain ⟨out, hout, hr⟩ := Option.map_eq_some'.mp h
    subst hr
    have hattrs := init_element_clean_attrs (.mk n nsp as nds)
    simp only [init_element, Element.attrs, Element.name, Element.ns] at hattrs
    simp only [append_nodes, init_element, Element.attrs, Element.name, Element.ns,
      clean_element, List.nil_append, Bool.and_eq_true]
    exact ⟨hattrs, ih out hout⟩
  · -- render_nodes []
    intro fuel out h
    simp only [render_nodes, Option.some.injEq] at h
    subst h
    simp [clean_nodes]
  · -- render_nodes text
    intro fuel s rest ih out h
    simp only [render_nodes, Option.bind_eq_bind] at h
    obtain ⟨r, hr, hout⟩ := Option.map_eq_some'.mp h
    subst hout
    simp [clean_nodes, clean_node, ih r hr]
  · -- render_nodes child
    intro fuel el rest ih1 ih2 out h
    simp only [render_nodes, Option.bind_eq_bind, Option.bind_eq_some] at h
    obtain ⟨here, hhere, r, hr, hout⟩ := h
    simp only [Option.pure_def, Option.some.injEq] at hout
    subst hout
    rw [clean_nodes_append]
    simp [ih1 here hhere, ih2 r hr]
  · -- render_child dispatch: include
    intro fuel nsp as nds ih out h
    simp only [render_child, reduceIte] at h
    exact ih out h
  · -- render_child dispatch: slot
    intro fuel nsp as nds _ ih out h
    simp [render_child] at h
    exact ih out h
  · -- render_child dispatch: unknown oeuvre tag
    intro fuel n nsp as nds h1 h2 h3 out h
    simp only [render_child, if_neg h1, if_neg h2, if_pos h3, Option.some.injEq] at h
    subst h
    simp [clean_nodes]
  · -- render_child dispatch: ordinary element
    intro fuel n nsp as nds h1 h2 h3 ih out h
    simp only [render_child, if_neg h1, if_neg h2, if_neg h3] at h
    obtain ⟨r, hr, hout⟩ := Option.map_eq_some'.mp h
    subst hout
    simp [clean_nodes, clean_node, ih r hr]
  · -- render_slot: found, out of fuel
    intro n nsp as nds slot_name ha v hv out h
    simp only [render_slot, ha, hv] at h
    exact absurd h (by simp)
  · -- render_slot: found, fragment
    intro n nsp as nds slot_name ha v hv fuel hfrag ih out h
    simp only [render_slot, ha, hv, hfrag, if_pos rfl] at h
    exact ih out (by simpa using h)
  · -- render_slot: found, ordinary value
    intro n nsp as nds slot_name ha v hv fuel hfrag ih out h
    simp only [render_slot, ha, hv, if_neg hfrag] at h
    obtain ⟨r, hr, hout⟩ := Option.map_eq_some'.mp h
    subst hout
    simp [clean_nodes, clean_node, ih r hr]
  · -- render_slot: not found
    intro fuel n nsp as nds slot_name ha hv ih out h
    simp only [render_slot, ha, hv] at h
    exact ih out h
  · -- render_slot: attribute absent
    intro fuel n nsp as nds ha out h
    simp only [render_slot, ha, Option.some.injEq] at h
    subst h
    simp [clean_nodes]
  · -- unwrap []
    intro fuel out h
    simp only [unwrap_fragment, Option.some.injEq] at h
    subst h
    simp [clean_nodes]
  · -- unwrap text
    intro fuel s rest ih out h
    simp only [unwrap_fragment] at h
    obtain ⟨r, hr, hout⟩ := Option.map_eq_some'.mp h
    subst hout
    simp [clean_nodes, clean_node, ih r hr]
  · -- unwrap child
    intro fuel el rest ih1 ih2 out h
    simp only [unwrap_fragment, Option.bind_eq_bind, Option.bind_eq_some] at h
    obtain ⟨r, hr, rs, hrs, hout⟩ := h
    simp only [Option.pure_def, Option.some.injEq] at hout
    subst hout
    simp [clean_nodes, clean_node, ih1 r hr, ih2 rs hrs]
  · -- render_include: found, out of fuel
    intro n nsp as nds snippet_name ha s hs out h
    simp only [render_include, ha, hs] at h
    exact absurd h (by simp)
  · -- render_include: found
    intro n nsp as nds snippet_name ha s hs fuel ih out h
    simp only [render_include, ha, hs] at h
    exact ih out h
  · -- render_include: not found
    intro fuel n nsp as nds snippet_name ha hs ih out h
    simp only [render_include, ha, hs] at h
    exact ih out h
  · -- render_include: attribute absent
    intro fuel n nsp as nds ha out h
    simp only [render_include, ha, Option.some.injEq] at h
    subst h
    simp [clean_nodes]

/-- C5: for every input element tree, slot-value map and snippet map, any
tree that `render_template` returns carries no attribute whose name begins
with `oeuvre-`, anywhere. -/
theorem spec_C5_no_reserved_attrs (slots snippets : SMap Element) (fuel : Nat)
    (e r : Element) (h : render_template slots snippets fuel e = some r) :
    clean_element r = true :=
  (render_clean_mutual slots snippets).1 fuel e r h

/-- C5 witness: a concrete render whose input carries a reserved attribute,
evaluated, and its output checked clean. -/
theorem spec_C5_witness :
    render_template [] [] 0 (Element.mk "div" "" [("oeuvre-x", "1"), ("id", "5")] [.text "hi"]) =
      some (Element.mk "div" "" [("id", "5")] [.text "hi"]) ∧
    clean_element (Element.mk "div" "" [("id", "5")] [.text "hi"]) = true := by
  have h : render_template [] [] 0
      (Element.mk "div" "" [("oeuvre-x", "1"), ("id", "5")] [.text "hi"]) =
      some (Element.mk "div" "" [("id", "5")] [.text "hi"]) := by
    simp only [render_template, render_nodes]
    rfl
  exact ⟨h, spec_C5_no_reserved_attrs [] [] 0 _ _ h⟩

/-- C9: when both the slot-value map and the snippet map are empty, the
renderer terminates on every finite input tree: no fuel is ever consumed, so
rendering succeeds for every fuel value, in particular fuel 0. -/
theorem spec_C9_terminates_empty_maps (fuel : Nat) (e : Element) :
    ∃ r, render_template [] [] fuel e = some r := by
  have H :
      (∀ fuel e, ∃ r, render_template [] [] fuel e = some r) ∧
      (∀ fuel l, ∃ out, render_nodes [] [] fuel l = some out) ∧
      (∀ fuel el, ∃ out, render_child [] [] fuel el = some out) ∧
      (∀ fuel el, ∃ out, render_slot [] [] fuel el = some out) ∧
      (∀ fuel l, ∃ out, unwrap_fragment [] [] fuel l = some out) ∧
      (∀ fuel el, ∃ out, render_include [] [] fuel el = some out) := by
    refine render_template.mutual_induct [] []
      (fun fuel e => ∃ r, render_template [] [] fuel e = some r)
      (fun fuel l => ∃ out, render_nodes [] [] fuel l = some out)
      (fun fuel el => ∃ out, render_child [] [] fuel el = some out)
      (fun fuel el => ∃ out, render_slot [] [] fuel el = some out)
      (fun fuel l => ∃ out, unwrap_fragment [] [] fuel l = some out)
      (fun fuel el => ∃ out, render_include [] [] fuel el = some out)
      ?_ ?_ ?_ ?_ ?_ ?_ ?_ ?_ ?_ ?_ ?_ ?_ ?_ ?_ ?_ ?_ ?_ ?_ ?_ ?_
    · intro fuel n nsp as nds ih
      obtain ⟨out, hout⟩ := ih
      exact ⟨append_nodes (init_element (.mk n nsp as nds)) out,
        by simp [render_template, hout]⟩
    · intro fuel
      exact ⟨[], by simp [render_nodes]⟩
    · intro fuel s rest ih
      obtain ⟨out, hout⟩ := ih
      exact ⟨.text s :: out, by simp [render_nodes, hout]⟩
    · intro fuel el rest ih1 ih2
      obtain ⟨here, hhere⟩ := ih1
      obtain ⟨r, hr⟩ := ih2
      exact ⟨here ++ r, by simp [render_nodes, hhere, hr]⟩
    · intro fuel nsp as nds ih
      obtain ⟨out, hout⟩ := ih
      exact ⟨out, by simpa [render_child, reduceIte] using hout⟩
    · intro fuel nsp as nds _ ih
      obtain ⟨out, hout⟩ := ih
      exact ⟨out, by simpa [render_child] using hout⟩
    · intro fuel n nsp as nds h1 h2 h3
      exact ⟨[], by simp [render_child, if_neg h1, if_neg h2, if_pos h3]⟩
    · intro fuel n nsp as nds h1 h2 h3 ih
      obtain ⟨r, hr⟩ := ih
      exact ⟨[.child r], by simp [render_child, if_neg h1, if_neg h2, if_neg h3, hr]⟩
    · intro n nsp as nds slot_name ha v hv
      exact absurd hv (by simp [SMap.find])
    · intro n nsp as nds slot_name ha v hv fuel hfrag ih
      exact absurd hv (by simp [SMap.find])
    · intro n nsp as nds slot_name ha v hv fuel hfrag ih
      exact absurd hv (by simp [SMap.find])
    · intro fuel n nsp as nds slot_name ha hv ih
      obtain ⟨out, hout⟩ := ih
      exact ⟨out, by simp [render_slot, ha, hv, hout]⟩
    · intro fuel n nsp as nds ha
      exact ⟨[], by simp [render_slot, ha]⟩
    · intro fuel
      exact ⟨[], by simp [unwrap_fragment]⟩
    · intro fuel s rest ih
      obtain ⟨out, hout⟩ := ih
      exact ⟨.text s :: out, by simp [unwrap_fragment, hout]⟩
    · intro fuel el rest ih1 ih2
      obtain ⟨r, hr⟩ := ih1
      obtain ⟨rs, hrs⟩ := ih2
      exact ⟨.child r :: rs, by simp [unwrap_fragment, hr, hrs]⟩
    · intro n nsp as nds snippet_name ha s hs
      exact absurd hs (by simp [SMap.find])
    · intro n nsp as nds snippet_name ha s hs fuel ih
      exact absurd hs (by simp [SMap.find])
    · intro fuel n nsp as nds snippet_name ha hs ih
      obtain ⟨out, hout⟩ := ih
      exact ⟨out, by simp [render_include, ha, hs, hout]⟩
    · intro fuel n nsp as nds ha
      exact ⟨[], by simp [render_include, ha]⟩
  exact H.1 fuel e

/-!
The path partitioner, `Site::expand_glob` (src/site/mod.rs lines 94-136; an
identical copy is `expand_glob` in src/main.rs lines 313-357).

Glob expansion itself is an external library (spec section 1): a pattern is
represented directly by its list of matching paths, failed patterns and
unreadable matches being already absent.  Paths are represented as strings
with their lexicographic order standing in for `PathBuf`'s order; the
algorithm only needs some linear order shared by the sort and the merge.
-/

abbrev Path := String

/-- Model of `Itertools::unique`: drop every occurrence of a value after its first,
tracked by a set of already-seen values. -/
def unique_seen (seen : List Path) : List Path → List Path
  | [] => []
  | p :: ps => if p ∈ seen then unique_seen seen ps else p :: unique_seen (p :: seen) ps

def unique (l : List Path) : List Path := unique_seen [] l

/-- Model of `Itertools::sorted` / `Vec::sort` (stable; on paths duplicates are
identical, so any sort of the same multiset agrees). -/
def sort_paths (l : List Path) : List Path := List.insertionSort (· ≤ ·) l

/-- One evaluation of the `filter` closure's `loop` in `expand_glob`: scan
the excluded iterator; keep the path if the iterator is exhausted or its
head is bigger, drop it (advancing once) on an exact match, and skip smaller
excluded entries.  Returns the kept/dropped decision and the rest of the
iterator. -/
def keep_path (path : Path) : List Path → Bool × List Path
  | [] => (true, [])
  | e :: es =>
    if path < e then (true, e :: es)
    else if path = e then (false, es)
    else keep_path path es

/-- The `filter` pass of `expand_glob`: one linear scan of the found paths
against the single persistent excluded-paths iterator. -/
def filter_excluded : List Path → List Path → List Path
  | [], _ => []
  | p :: ps, excluded =>
    let r := keep_path p excluded
    if r.1 then p :: filter_excluded ps r.2 else filter_excluded ps r.2

/-- Model of `Site::expand_glob`: flatten all patterns' matches in order, deduplicate,
sort, subtract the excluded paths by the linear merge, then append the kept
results to the excluded list and re-sort it.  Returns (kept results, new
excluded list). -/
def expand_glob (glob_patterns : List (List Path)) (excluded_paths : List Path) :
    List Path × List Path :=
  let found_paths := sort_paths (unique glob_patterns.flatten)
  let found_paths := filter_excluded found_paths excluded_paths
  (found_paths, sort_paths (excluded_paths ++ found_paths))

/-- The successive `expand_glob` calls of `Site::load`, one per category in
priority order, threading the shared excluded-paths list. -/
def run_partitions : List (List (List Path)) → List Path → List (List Path)
  | [], _ => []
  | cat :: cats, excluded_paths =>
    match expand_glob cat excluded_paths with
    | (found, excluded') => found :: run_partitions cats excluded'

theorem mem_unique_seen (l : List Path) :
    ∀ seen a, a ∈ unique_seen seen l ↔ a ∈ l ∧ a ∉ seen := by
  induction l with
  | nil => intro seen a; simp [unique_seen]
  | cons p ps ih =>
    intro seen a
    by_cases hp : p ∈ seen
    · simp only [unique_seen, if_pos hp, ih]
      constructor
      · rintro ⟨ha, hs⟩; exact ⟨by simp [ha], hs⟩
      · rintro ⟨ha, hs⟩
        rcases List.mem_cons.mp ha with h | h
        · exact absurd (h ▸ hp) hs
        · exact ⟨h, hs⟩
    · simp only [unique_seen, if_neg hp, List.mem_cons, ih]
      constructor
      · rintro (rfl | ⟨ha, hs⟩)
        · exact ⟨Or.inl rfl, hp⟩
        · exact ⟨Or.inr ha, fun hc => hs (by simp [hc])⟩
      · rintro ⟨rfl | ha, hs⟩
        · exact Or.inl rfl
        · by_cases hap : a = p
          · exact Or.inl hap
          · exact Or.inr ⟨ha, by simp [hap, hs]⟩

theorem nodup_unique_seen (l : List Path) : ∀ seen, (unique_seen seen l).Nodup := by
  induction l with
  | nil => intro seen; simp [unique_seen]
  | cons p ps ih =>
    intro seen
    by_cases hp : p ∈ seen
    · simpa [unique_seen, if_pos hp] using ih seen
    · simp only [unique_seen, if_neg hp, List.nodup_cons]
      exact ⟨fun hc => ((mem_unique_seen ps (p :: seen) p).mp hc).2 (by simp), ih _⟩

theorem mem_unique (l : List Path) (a : Path) : a ∈ unique l ↔ a ∈ l := by
  simp [unique, mem_unique_seen]

theorem nodup_unique (l : List Path) : (unique l).Nodup := nodup_unique_seen l []

theorem sort_paths_sorted (l : List Path) : (sort_paths l).Sorted (· ≤ ·) :=
  List.sorted_insertionSort _ l

theorem mem_sort_paths (l : List Path) (a : Path) : a ∈ sort_paths l ↔ a ∈ l :=
  (List.perm_insertionSort _ l).mem_iff

theorem nodup_sort_paths (l : List Path) (h : l.Nodup) : (sort_paths l).Nodup :=
  (List.perm_insertionSort _ l).nodup_iff.mpr h

theorem keep_path_suffix (p : Path) (ex : List Path) : (keep_path p ex).2 <:+ ex := by
  induction ex with
  | nil => simp [keep_path]
  | cons e es ih =>
    simp only [keep_path]
    split
    · exact List.suffix_rfl
    · split
      · exact List.suffix_cons e es
      · exact ih.trans (List.suffix_cons e es)

theorem keep_path_kept (p : Path) (ex : List Path) (hex : ex.Sorted (· ≤ ·)) :
    (keep_path p ex).1 = true ↔ p ∉ ex := by
  induction ex with
  | nil => simp [keep_path]
  | cons e es ih =>
    obtain ⟨he, hes⟩ := List.sorted_cons.mp hex
    simp only [keep_path]
    split
    · rename_i hlt
      simp only [true_iff]
      intro hc
      rcases List.mem_cons.mp hc with rfl | hc
      · exact lt_irrefl p hlt
      · exact absurd (hlt.trans_le (he p hc)) (lt_irrefl p)
    · split
      · rename_i heq
        simp [heq]
      · rename_i hlt heq
        rw [ih hes]
        simp [List.mem_cons, heq]

theorem keep_path_rest_mem (p : Path) (ex : List Path) (hex : ex.Sorted (· ≤ ·))
    (a : Path) (hpa : p < a) : a ∈ (keep_path p ex).2 ↔ a ∈ ex := by
  induction ex with
  | nil => simp [keep_path]
  | cons e es ih =>
    obtain ⟨he, hes⟩ := List.sorted_cons.mp hex
    simp only [keep_path]
    split
    · rfl
    · split
      · rename_i hlt heq
        subst heq
        simp only [List.mem_cons]
        constructor
        · exact Or.inr
        · rintro (rfl | h)
          · exact absurd hpa (lt_irrefl a)
          · exact h
      · rename_i hlt heq
        rw [ih hes]
        have hep : e < p := lt_of_le_of_ne (le_of_not_lt hlt) (fun hc => heq hc.symm)
        have hea : a ≠ e := fun hc => absurd (hc ▸ hep.trans hpa) (lt_irrefl e)
        simp [List.mem_cons, hea]

theorem mem_filter_excluded (found : List Path) :
    ∀ ex, found.Sorted (· < ·) → ex.Sorted (· ≤ ·) →
      ∀ a, a ∈ filter_excluded found ex ↔ a ∈ found ∧ a ∉ ex := by
  induction found with
  | nil => intro ex _ _ a; simp [filter_excluded]
  | cons p ps ih =>
    intro ex hfound hex a
    obtain ⟨hp, hps⟩ := List.sorted_cons.mp hfound
    rcases hk : keep_path p ex with ⟨b, ex'⟩
    have hsuffix2 : ex' <:+ ex := by
      have h := keep_path_suffix p ex
      rw [hk] at h
      exact h
    have hexs : ex'.Sorted (· ≤ ·) := hex.sublist hsuffix2.sublist
    have hrest2 : ∀ c ∈ ps, (c ∈ ex' ↔ c ∈ ex) := by
      intro c hc
      have h := keep_path_rest_mem p ex hex c (hp c hc)
      rw [hk] at h
      exact h
    simp only [filter_excluded, hk]
    cases b
    · -- dropped: p was found in the excluded list
      have hpex : p ∈ ex := by
        by_contra hc
        have h := (keep_path_kept p ex hex).mpr hc
        rw [hk] at h
        exact Bool.false_ne_true h
      simp only [Bool.false_eq_true, if_false, ih ex' hps hexs, List.mem_cons]
      constructor
      · rintro ⟨ha, hnex'⟩
        exact ⟨Or.inr ha, fun hc => hnex' ((hrest2 a ha).mpr hc)⟩
      · rintro ⟨rfl | ha, hnex⟩
        · exact absurd hpex hnex
        · exact ⟨ha, fun hc => hnex ((hrest2 a ha).mp hc)⟩
    · -- kept: p is not excluded
      have hpex : p ∉ ex := by
        apply (keep_path_kept p ex hex).mp
        rw [hk]
      simp only [if_true, List.mem_cons, ih ex' hps hexs]
      constructor
      · rintro (rfl | ⟨ha, hnex'⟩)
        · exact ⟨Or.inl rfl, hpex⟩
        · exact ⟨Or.inr ha, fun hc => hnex' ((hrest2 a ha).mpr hc)⟩
      · rintro ⟨rfl | ha, hnex⟩
        · exact Or.inl rfl
        · exact Or.inr ⟨ha, fun hc => hnex ((hrest2 a ha).mp hc)⟩

/-- The specification of one `expand_glob` call: the returned paths are
exactly the matched paths not yet excluded, and the new excluded list is the
old one plus all matched paths, still sorted. -/
theorem expand_glob_spec (pats : List (List Path)) (ex : List Path)
    (hex : ex.Sorted (· ≤ ·)) :
    (∀ a, a ∈ (expand_glob pats ex).1 ↔ a ∈ pats.flatten ∧ a ∉ ex) ∧
    (∀ a, a ∈ (expand_glob pats ex).2 ↔ a ∈ ex ∨ a ∈ pats.flatten) ∧
    (expand_glob pats ex).2.Sorted (· ≤ ·) := by
  have hsorted : (sort_paths (unique pats.flatten)).Sorted (· ≤ ·) := sort_paths_sorted _
  have hnodup : (sort_paths (unique pats.flatten)).Nodup :=
    nodup_sort_paths _ (nodup_unique _)
  have hstrict : (sort_paths (unique pats.flatten)).Sorted (· < ·) :=
    hsorted.lt_of_le hnodup
  have hmem : ∀ a, a ∈ sort_paths (unique pats.flatten) ↔ a ∈ pats.flatten := by
    intro a
    rw [mem_sort_paths, mem_unique]
  have hkept : ∀ a, a ∈ (expand_glob pats ex).1 ↔ a ∈ pats.flatten ∧ a ∉ ex := by
    intro a
    simp only [expand_glob]
    rw [mem_filter_excluded _ ex hstrict hex, hmem]
  refine ⟨hkept, ?_, ?_⟩
  · intro a
    simp only [expand_glob] at hkept ⊢
    rw [mem_sort_paths, List.mem_append, hkept a]
    by_cases hx : a ∈ ex <;> by_cases hf : a ∈ pats.flatten <;> simp [hx, hf]
  · exact sort_paths_sorted _

theorem run_partitions_avoid_mem (cats : List (List (List Path))) :
    ∀ ex p, ex.Sorted (· ≤ ·) → p ∈ ex →
      ∀ l ∈ run_partitions cats ex, p ∉ l := by
  induction cats with
  | nil => intro ex p _ _ l hl; simp [run_partitions] at hl
  | cons cat cats ih =>
    intro ex p hex hp l hl
    obtain ⟨h1, h2, h3⟩ := expand_glob_spec cat ex hex
    simp only [run_partitions] at hl
    rcases List.mem_cons.mp hl with rfl | hl
    · intro hc
      exact ((h1 p).mp hc).2 hp
    · exact ih _ p h3 ((h2 p).mpr (Or.inl hp)) l hl

theorem not_mem_getD_nil {α : Type} (ll : List (List α)) (p : α)
    (h : ∀ l ∈ ll, p ∉ l) (k : Nat) : p ∉ ll.getD k [] := by
  induction ll generalizing k with
  | nil => cases k <;> simp
  | cons l ls ih =>
    cases k with
    | zero => simpa using h l (by simp)
    | succ k =>
      simp only [List.getD_cons_succ]
      exact ih (fun x hx => h x (by simp [hx])) k

theorem run_partitions_avoid (cats : List (List (List Path)))
    (ex : List Path) (p : Path) (hex : ex.Sorted (· ≤ ·)) (hp : p ∈ ex)
    (k : Nat) : p ∉ (run_partitions cats ex).getD k [] :=
  not_mem_getD_nil _ p (run_partitions_avoid_mem cats ex p hex hp) k

theorem run_partitions_union (cats : List (List (List Path))) :
    ∀ ex, ex.Sorted (· ≤ ·) →
      ∀ p, p ∈ (run_partitions cats ex).flatten ↔
        p ∈ (cats.map List.flatten).flatten ∧ p ∉ ex := by
  induction cats with
  | nil => intro ex _ p; simp [run_partitions]
  | cons cat cats ih =>
    intro ex hex p
    obtain ⟨h1, h2, h3⟩ := expand_glob_spec cat ex hex
    simp only [run_partitions, List.map_cons, List.flatten_cons, List.mem_append]
    rw [h1, ih _ h3, h2]
    by_cases hx : p ∈ ex <;> by_cases hc : p ∈ cat.flatten <;>
      by_cases hr : p ∈ (cats.map List.flatten).flatten <;> simp [hx, hc, hr]

theorem run_partitions_disjoint (cats : List (List (List Path))) :
    ∀ ex, ex.Sorted (· ≤ ·) →
      (run_partitions cats ex).Pairwise (fun a b => ∀ p, p ∈ a → p ∉ b) := by
  induction cats with
  | nil => intro ex _; simp [run_partitions]
  | cons cat cats ih =>
    intro ex hex
    obtain ⟨h1, h2, h3⟩ := expand_glob_spec cat ex hex
    simp only [run_partitions]
    constructor
    · intro l hl p hp
      have hp' : p ∈ (expand_glob cat ex).2 := (h2 p).mpr (Or.inr ((h1 p).mp hp).1)
      exact run_partitions_avoid_mem cats _ p h3 hp' l hl
    · exact ih _ h3

theorem run_partitions_priority (cats : List (List (List Path))) :
    ∀ ex, ex.Sorted (· ≤ ·) →
      ∀ i j, i < j → ∀ p, p ∈ (cats.getD i []).flatten →
        p ∉ (run_partitions cats ex).getD j [] := by
  induction cats with
  | nil => intro ex _ i j _ p hp; simp at hp
  | cons cat cats ih =>
    intro ex hex i j hij p hp
    obtain ⟨h1, h2, h3⟩ := expand_glob_spec cat ex hex
    obtain ⟨j', rfl⟩ : ∃ j', j = j' + 1 := ⟨j - 1, by omega⟩
    simp only [run_partitions, List.getD_cons_succ]
    cases i with
    | zero =>
      simp only [List.getD_cons_zero] at hp
      exact run_partitions_avoid cats _ p h3 ((h2 p).mpr (Or.inr hp)) j'
    | succ i' =>
      simp only [List.getD_cons_succ] at hp
      exact ih _ h3 i' j' (by omega) p hp

/-- C1: running the partitioner once per category in order, starting from an
empty claimed set, yields path lists that are pairwise disjoint and whose
union is exactly the set of all distinct paths matched by any pattern of any
category; a path matched by an earlier category never appears in a later
category's result. -/
theorem spec_C1_partition_disjoint (cats : List (List (List Path))) :
    (run_partitions cats []).Pairwise (fun a b => ∀ p, p ∈ a → p ∉ b) ∧
    (∀ p, p ∈ (run_partitions cats []).flatten ↔ p ∈ (cats.map List.flatten).flatten) ∧
    (∀ i j, i < j → ∀ p, p ∈ (cats.getD i []).flatten →
      p ∉ (run_partitions cats []).getD j []) := by
  refine ⟨run_partitions_disjoint cats [] (by simp), ?_, ?_⟩
  · intro p
    rw [run_partitions_union cats [] (by simp) p]
    simp
  · exact run_partitions_priority cats [] (by simp)

/-- C1 witness: two categories both matching `"f"`; the later category's
result does not contain it. -/
theorem spec_C1_witness :
    (0 : Nat) < 1 ∧
    "f" ∈ (([[["a", "f"]], [["f", "z"]]].getD 0 []).flatten : List Path) ∧
    "f" ∉ (run_partitions [[["a", "f"]], [["f", "z"]]] []).getD 1 [] :=
  ⟨Nat.zero_lt_one, by simp,
    (spec_C1_partition_disjoint [[["a", "f"]], [["f", "z"]]]).2.2 0 1 Nat.zero_lt_one
      "f" (by simp)⟩

/-!
Library loader, `Template::new` / `Template::load_many`
(src/site/template.rs lines 16-33 and 42-61; `Snippet` in snippet.rs is
identical).  Reading and parsing a file are external (spec section 1): a
candidate file is represented by `none` when reading or parsing failed
(logged, skipped) and by `some root` otherwise.  A `Template` value is its
root element, keyed by its declared name.
-/

/-- Model of `Template::new`: require the `oeuvre-name` attribute, reject a name that
is already present in the collection being built (the earlier entry is
kept).  `none` is the error case of the source (logged by the caller, file
skipped). -/
def template_new (element : Element) (templates : SMap Element) :
    Option (String × Element) :=
  match element.attr "oeuvre-name" with
  | none => none
  | some name =>
    if (SMap.find templates name).isSome then none
    else some (name, element)

/-- Model of `Template::load_many`: fold over the candidate files in order; every
failing file (unreadable, unparsable, nameless, duplicate name) is skipped
and the loop continues. -/
def template_load_many : List (Option Element) → SMap Element → SMap Element
  | [], templates => templates
  | file :: rest, templates =>
    match file with
    | none => template_load_many rest templates
    | some element =>
      match template_new element templates with
      | none => template_load_many rest templates
      | some (name, t) => template_load_many rest (templates.insert name t)

/-- The first successfully parsed candidate that declares name `n`. -/
def first_decl (files : List (Option Element)) (n : String) : Option Element :=
  files.findSome? (fun f => f.bind (fun e =>
    if e.attr "oeuvre-name" = some n then some e else none))

theorem SMap.find_insert {α : Type} (m : SMap α) (k : String) (v : α) :
    SMap.find (m.insert k v) k = some v := by
  simp [SMap.insert, SMap.find]

theorem SMap.find_insert_ne {α : Type} (m : SMap α) (k k' : String) (v : α)
    (h : k ≠ k') : SMap.find (m.insert k v) k' = SMap.find m k' := by
  simp only [SMap.insert, SMap.find, if_neg h]
  induction m with
  | nil => rfl
  | cons a rest ih =>
    obtain ⟨a1, a2⟩ := a
    by_cases ha : a1 = k
    · subst ha
      rw [List.filter_cons_of_neg (by simp), ih]
      simp [SMap.find, if_neg h]
    · rw [List.filter_cons_of_pos (by simpa using ha)]
      simp only [SMap.find]
      by_cases hk' : a1 = k'
      · simp [hk']
      · simp only [if_neg hk']
        exact ih

theorem template_load_many_find (files : List (Option Element)) :
    ∀ acc n, SMap.find (template_load_many files acc) n =
      (SMap.find acc n).or (first_decl files n) := by
  induction files with
  | nil =>
    intro acc n
    simp [template_load_many, first_decl]
  | cons f rest ih =>
    intro acc n
    cases f with
    | none =>
      simp only [template_load_many, ih, first_decl, List.findSome?_cons]
      rfl
    | some e =>
      cases he : e.attr "oeuvre-name" with
      | none =>
        simp only [template_load_many, template_new, he, ih]
        simp [first_decl, List.findSome?_cons, he]
      | some m =>
        by_cases hacc : (SMap.find acc m).isSome
        · simp only [template_load_many, template_new, he, if_pos hacc, ih]
          by_cases hnm : m = n
          · subst hnm
            obtain ⟨v, hv⟩ := Option.isSome_iff_exists.mp hacc
            simp [first_decl, List.findSome?_cons, he, hv]
          · simp [first_decl, List.findSome?_cons, he, hnm]
        · simp only [template_load_many, template_new, he, if_neg hacc, ih]
          by_cases hnm : m = n
          · subst hnm
            rw [SMap.find_insert]
            have haccn : SMap.find acc m = none := Option.not_isSome_iff_eq_none.mp hacc
            simp [first_decl, List.findSome?_cons, he, haccn]
          · rw [SMap.find_insert_ne _ _ _ _ hnm]
            simp [first_decl, List.findSome?_cons, he, hnm]

/-- C6: in `Template::load_many`, the first successfully parsed definition of
a name wins — the final collection maps each name to the first parsed file
declaring it; a failing file (unreadable/unparsable, or rejected by
`Template::new` for a missing or duplicate name) is skipped without
stopping the processing of the remaining files. -/
theorem spec_C6_first_wins (files : List (Option Element)) (n : String) :
    SMap.find (template_load_many files []) n = first_decl files n ∧
    (∀ rest acc, template_load_many (none :: rest) acc = template_load_many rest acc) ∧
    (∀ e rest acc, template_new e acc = none →
      template_load_many (some e :: rest) acc = template_load_many rest acc) := by
  refine ⟨?_, ?_, ?_⟩
  · rw [template_load_many_find]
    simp [SMap.find]
  · intro rest acc
    simp [template_load_many]
  · intro e rest acc h
    simp [template_load_many, h]

/-- C6 witness: loading two parsed files that both declare the name `"t"`
keeps the first; a nameless file is skipped. -/
theorem spec_C6_witness :
    SMap.find
        (template_load_many
          [some (Element.mk "html" "" [("oeuvre-name", "t")] [.text "first"]),
           some (Element.mk "html" "" [("oeuvre-name", "t")] [.text "second"])] [])
        "t" =
      some (Element.mk "html" "" [("oeuvre-name", "t")] [.text "first"]) ∧
    template_new (Element.mk "html" "" [] []) [] = none ∧
    template_load_many [some (Element.mk "html" "" [] [])] [] = template_load_many [] [] := by
  refine ⟨?_, rfl,
    (spec_C6_first_wins [] "x").2.2 (Element.mk "html" "" [] []) [] [] rfl⟩
  rw [(spec_C6_first_wins
    [some (Element.mk "html" "" [("oeuvre-name", "t")] [.text "first"]),
     some (Element.mk "html" "" [("oeuvre-name", "t")] [.text "second"])] "t").1]
  rfl

/-!
Page loader, `Page::new` / `Page::load_many` (src/site/page.rs lines 25-78).
String-level models of the `str` and `Path` operations the source uses:
`split(',')`, `trim`, `starts_with('/')`, `parent()`, `join`.
-/

/-- Model of `str::split(c)`: split a character list at every occurrence of `c`;
`n` separators yield `n + 1` (possibly empty) pieces. -/
def split_chars (c : Char) : List Char → List (List Char)
  | [] => [[]]
  | x :: xs =>
    match split_chars c xs with
    | [] => [[]]
    | h :: t => if x = c then [] :: h :: t else (x :: h) :: t

def split_on_char (c : Char) (s : String) : List String :=
  (split_chars c s.data).map String.mk

/-- Model of `str::trim`: drop leading and trailing whitespace.  (Rust trims Unicode
`White_Space`; the embedding uses Lean's `Char.isWhitespace`, which agrees on
the ASCII whitespace that path and name attributes use.) -/
def trim (s : String) : String :=
  String.mk (((s.data.dropWhile Char.isWhitespace).reverse.dropWhile
    Char.isWhitespace).reverse)

/-- Model of `Path::parent().unwrap()` on a relative path string: everything before
the last `/`-separated component, `""` for a single-component path. -/
def parent_path (p : String) : String :=
  match (split_on_char '/' p).dropLast with
  | [] => ""
  | c :: cs => cs.foldl (fun acc comp => acc ++ "/" ++ comp) c

/-- Model of `Path::join` with a relative right operand. -/
def join_path (a b : String) : String :=
  if a = "" then b else a ++ "/" ++ b

/-- The output-path computation of `Page::new` (page.rs lines 31-37): a
present `oeuvre-path` attribute starting with `/` is used without its
leading slash (root-relative to the output directory); a present attribute
without a leading `/` is joined onto the source file's parent directory; an
absent attribute leaves the source file's own relative path. -/
def page_output_path (path_attr : Option String) (input_path : String) : String :=
  match path_attr with
  | some attr_value =>
    if starts_with attr_value "/" then String.mk (attr_value.data.drop 1)
    else join_path (parent_path input_path) attr_value
  | none => input_path

/-- The path a page is written to (`Page::write`, page.rs line 111):
`site.output_dir.join(&self.path)`; the `clean()` normalization is omitted —
the claims concern which path is chosen, not its normal form. -/
def page_write_path (output_dir page_path : String) : String :=
  join_path output_dir page_path

/-- The slot-value map built by `Page::new` (page.rs lines 39-47): scan the
page root's direct children only; each child carrying an `oeuvre-slot`
attribute is inserted under every comma-separated, trimmed name of that
attribute's value. -/
def page_slot_values (element : Element) : SMap Element :=
  element.children.foldl
    (fun slot_values child =>
      match child.attr "oeuvre-slot" with
      | none => slot_values
      | some slot_names =>
        (split_on_char ',' slot_names).foldl
          (fun sv slot_name => sv.insert (trim slot_name) child) slot_values)
    []

/-- Whether a direct child's `oeuvre-slot` declaration contains the slot name
`nm` (after splitting on commas and trimming). -/
def declares_slot (child : Element) (nm : String) : Option Element :=
  match child.attr "oeuvre-slot" with
  | none => none
  | some s => if nm ∈ (split_on_char ',' s).map trim then some child else none

theorem slot_names_foldl_find (names : List String) (child : Element) :
    ∀ acc nm, SMap.find (names.foldl (fun sv s => sv.insert (trim s) child) acc) nm =
      if nm ∈ names.map trim then some child else SMap.find acc nm := by
  induction names with
  | nil => intro acc nm; simp
  | cons t ts ih =>
    intro acc nm
    simp only [List.foldl_cons, ih, List.map_cons, List.mem_cons]
    by_cases h1 : nm ∈ ts.map trim
    · simp [h1]
    · by_cases h2 : nm = trim t
      · subst h2
        simp [h1, SMap.find_insert]
      · rw [if_neg h1, SMap.find_insert_ne _ _ _ _ (Ne.symm h2)]
        simp [h1, h2]

theorem page_children_foldl_find (cs : List Element) :
    ∀ acc nm, SMap.find (cs.foldl
        (fun slot_values child =>
          match child.attr "oeuvre-slot" with
          | none => slot_values
          | some slot_names =>
            (split_on_char ',' slot_names).foldl
              (fun sv slot_name => sv.insert (trim slot_name) child) slot_values)
        acc) nm =
      (cs.reverse.findSome? (fun child => declares_slot child nm)).or (SMap.find acc nm) := by
  induction cs with
  | nil => intro acc nm; simp
  | cons c cs ih =>
    intro acc nm
    have hsingle : List.findSome? (fun child => declares_slot child nm) [c] =
        declares_slot c nm := by
      rw [List.findSome?_cons]
      cases declares_slot c nm <;> simp
    simp only [List.foldl_cons, ih, List.reverse_cons, List.findSome?_append,
      hsingle, Option.or_assoc]
    congr 1
    cases hc : c.attr "oeuvre-slot" with
    | none =>
      simp [declares_slot, hc]
    | some s =>
      simp only [hc]
      rw [slot_names_foldl_find]
      by_cases h : nm ∈ (split_on_char ',' s).map trim
      · simp [declares_slot, hc, h]
      · simp [declares_slot, hc, h]

/-- C7: the slot-value map of a page is built from the root's direct
children only: looking up a slot name finds the last child in document order
whose comma-separated, trimmed `oeuvre-slot` declaration contains that name
(each such name maps to that whole child element); children without the
attribute, and all deeper descendants, contribute nothing. -/
theorem spec_C7_slot_map (element : Element) (nm : String) :
    SMap.find (page_slot_values element) nm =
      element.children.reverse.findSome? (fun child => declares_slot child nm) := by
  rw [page_slot_values, page_children_foldl_find]
  simp [SMap.find]

/-- C8: the three cases of the page output path: a `/`-prefixed override is
taken relative to the output directory with the slash dropped, an
unprefixed override is resolved against the source file's parent directory,
and an absent override leaves the source file's own path. -/
theorem spec_C8_output_path (path_attr : Option String) (input_path output_dir : String) :
    (∀ v, path_attr = some v → starts_with v "/" = true →
      page_output_path path_attr input_path = String.mk (v.data.drop 1) ∧
      page_write_path output_dir (page_output_path path_attr input_path) =
        join_path output_dir (String.mk (v.data.drop 1))) ∧
    (∀ v, path_attr = some v → starts_with v "/" = false →
      page_output_path path_attr input_path = join_path (parent_path input_path) v) ∧
    (path_attr = none → page_output_path path_attr input_path = input_path) := by
  refine ⟨?_, ?_, ?_⟩
  · intro v hv hs
    subst hv
    simp [page_output_path, hs, page_write_path]
  · intro v hv hs
    subst hv
    simp [page_output_path, hs]
  · intro hv
    subst hv
    simp [page_output_path]

/-- C8 witness: the three cases at concrete paths. -/
theorem spec_C8_witness :
    page_output_path (some "/x/y.html") "pages/a.html" = "x/y.html" ∧
    page_output_path (some "y.html") "pages/a.html" = "pages/y.html" ∧
    page_output_path none "pages/a.html" = "pages/a.html" :=
  ⟨((spec_C8_output_path (some "/x/y.html") "pages/a.html" "out").1
      "/x/y.html" rfl rfl).1,
   (spec_C8_output_path (some "y.html") "pages/a.html" "out").2.1 "y.html" rfl rfl,
   (spec_C8_output_path none "pages/a.html" "out").2.2 rfl⟩

/-- A loaded page record (`Page`): output path, target template name and
slot-value map. -/
structure PageRec where
  path : String
  template : String
  slot_values : SMap Element

/-- Model of `Page::new` (page.rs lines 25-54): require `oeuvre-template`; compute
the output path and the slot-value map. -/
def page_new (element : Element) (input_path : String) : Option PageRec :=
  match element.attr "oeuvre-template" with
  | none => none
  | some template =>
    some { path := page_output_path (element.attr "oeuvre-path") input_path,
           template := template,
           slot_values := page_slot_values element }

/-- Model of `Page::load_many` (page.rs lines 63-78): fold over the candidate files
in order, skipping failures, and insert every loaded page keyed by its
output path (`page.path.display().to_string()`). -/
def page_load_many : List (String × Option Element) → SMap PageRec → SMap PageRec
  | [], pages => pages
  | (input_path, parsed) :: rest, pages =>
    match parsed with
    | none => page_load_many rest pages
    | some element =>
      match page_new element input_path with
      | none => page_load_many rest pages
      | some page => page_load_many rest (pages.insert page.path page)

/-- The page loaded from one candidate file, if any. -/
def load_page_at (f : String × Option Element) : Option PageRec :=
  f.2.bind (fun e => page_new e f.1)

theorem page_load_many_find (files : List (String × Option Element)) :
    ∀ acc k, SMap.find (page_load_many files acc) k =
      (files.reverse.findSome? (fun f =>
        (load_page_at f).bind (fun pg => if pg.path = k then some pg else none))).or
        (SMap.find acc k) := by
  induction files with
  | nil => intro acc k; simp [page_load_many]
  | cons f rest ih =>
    intro acc k
    obtain ⟨input_path, parsed⟩ := f
    cases parsed with
    | none =>
      simp only [page_load_many, ih, List.reverse_cons, List.findSome?_append]
      simp [load_page_at, Option.or_assoc]
    | some element =>
      cases hp : page_new element input_path with
      | none =>
        simp only [page_load_many, hp, ih, List.reverse_cons, List.findSome?_append]
        simp [load_page_at, hp, Option.or_assoc]
      | some page =>
        simp only [page_load_many, hp, ih, List.reverse_cons, List.findSome?_append]
        by_cases hk : page.path = k
        · rw [hk, SMap.find_insert]
          simp [load_page_at, hp, hk, Option.or_assoc]
        · rw [SMap.find_insert_ne _ _ _ _ hk]
          simp [load_page_at, hp, hk, Option.or_assoc]

/-- C10: the page map is keyed by output path, and a later candidate file
whose page resolves to an already-used output path silently replaces the
earlier one: looking up an output path finds the page loaded from the
latest candidate resolving to it, so at most one page exists per output
path. -/
theorem spec_C10_last_wins (files : List (String × Option Element)) (k : String) :
    SMap.find (page_load_many files []) k =
      files.reverse.findSome? (fun f =>
        (load_page_at f).bind (fun pg => if pg.path = k then some pg else none)) := by
  rw [page_load_many_find]
  simp [SMap.find]

end Oeuvre
